import Mathlib

/-!
Verification of the indentation-reconstruction core of the `python-paste-pro`
editor extension (`src/extension.js`).  Lines of text are modelled as `List Char`,
documents as `List (List Char)`, and the JavaScript string primitives used by
the source (`trim`, `trimEnd`, `match(/^\s*/)`, `repeat`, `replaceAll`, `split`,
the `/^(>>> |\.\.\. )/gm` replacement, …) are given explicit executable
definitions.  Each function of the source file is translated one-to-one.
-/

set_option autoImplicit false

namespace PythonPastePro

/-- Whitespace test matching the JavaScript `\s` class (and `trim`) for the
ASCII characters that occur in the texts the extension manipulates. -/
def isWS (c : Char) : Bool :=
  c == ' ' || c == '\t' || c == '\n' || c == '\r' || c == '\x0b' || c == '\x0c'

/-- Leading-whitespace run of a line: JavaScript `line.match(/^\s*/)[0]`. -/
def leadingWS (l : List Char) : List Char := l.takeWhile isWS

/-- JavaScript `String.prototype.trimEnd`. -/
def trimEndL (l : List Char) : List Char := (l.reverse.dropWhile isWS).reverse

/-- JavaScript `String.prototype.trim` (both ends). -/
def trimL (l : List Char) : List Char := trimEndL (l.dropWhile isWS)

/-- JavaScript `/^\s+/.test(line)`: the line starts with a whitespace character. -/
def hasLeadingWS (l : List Char) : Bool :=
  match l with
  | [] => false
  | c :: _ => isWS c

/-- JavaScript `unit.repeat n`. -/
def repeatL (u : List Char) (n : Nat) : List Char := (List.replicate n u).flatten

/-- JavaScript `s.endsWith(':')` applied to a code part. -/
def endsWithColon (s : List Char) : Bool := s.getLast? == some ':'

/-- JavaScript `/[:({[]$/.test s`: the string ends with a block-opening character. -/
def endsWithOpener (s : List Char) : Bool :=
  match s.getLast? with
  | some c => c == ':' || c == '(' || c == '\x7b' || c == '['
  | none => false

/-- Translation of `getCodePart` (src/extension.js:18): the substring before the first `#`,
right-trimmed.  JavaScript `indexOf('#')`/`substring` is `takeWhile (· != '#')`. -/
def getCodePart (line : List Char) : List Char :=
  trimEndL (line.takeWhile (fun c => c != '#'))

/-- Host configuration consumed by `getIndentUnit` (src/extension.js:8). -/
structure EditorOptions where
  tabSize : Nat
  insertSpaces : Bool

/-- Translation of `getIndentUnit` (src/extension.js:8). -/
def getIndentUnit (opts : EditorOptions) : List Char :=
  if opts.insertSpaces then List.replicate opts.tabSize ' ' else ['\t']

/-- Length of the leading space run, JavaScript
`line.match(/^ +/)` followed by `match ? match[0].length : 0`. -/
def spaceCount (l : List Char) : Nat := (l.takeWhile (fun c => c == ' ')).length

/-- JavaScript `Math.min(...xs)` over a nonempty list of naturals.  The source
only evaluates it on a nonempty list (`linesWithIndent.length === 0` is
already excluded); the `[]` case is unreachable there. -/
def minList : List Nat → Nat
  | [] => 0
  | x :: xs => xs.foldl Nat.min x

/-- Translation of `getGuessedIndentUnit` (src/extension.js:32). -/
def getGuessedIndentUnit (lines : List (List Char)) (indentUnit : List Char) :
    List Char :=
  let linesWithIndent := (lines.drop 1).filter hasLeadingWS
  if linesWithIndent.isEmpty then
    indentUnit
  else
    let spaceCounts := linesWithIndent.map spaceCount
    let minSpaceCount := minList spaceCounts
    if 0 < minSpaceCount ∧ minSpaceCount ≤ 4 then
      List.replicate minSpaceCount ' '
    else
      indentUnit

/-- Mutable state of the `indentLines` loop (src/extension.js:58-61):
`currentIndentLevel`, `previousLineIndent`, `isPreviousLineIndentSet`. -/
structure ILState where
  cur : Int
  prevIndent : List Char
  isSet : Bool

/-- Loop body of `indentLines` (src/extension.js:62-101), processing the lines
after the first.  `cur` may go negative transiently (JavaScript `Math.floor`
of a negative difference), hence `Int`; the rendered level is clamped with
`Math.max(0, ·)` in the preserved branch, and in the lost branch the level is
never negative (it starts at 0 or 1 and is only ever incremented). -/
def indentLinesGo (base : Nat) (unit : List Char) (hasLostIndent : Bool)
    (firstLine : List Char) : ILState → List (List Char) → List (List Char)
  | _, [] => []
  | st, line :: rest =>
    let trimmedLine := trimL line
    if trimmedLine.isEmpty then
      [] :: indentLinesGo base unit hasLostIndent firstLine st rest
    else if hasLostIndent then
      let newIndentLevel : Int := (base : Int) + st.cur
      let out := repeatL unit newIndentLevel.toNat ++ trimmedLine
      let cur' :=
        if !(trimmedLine.head? == some '#') && endsWithColon (getCodePart trimmedLine)
        then st.cur + 1 else st.cur
      out :: indentLinesGo base unit hasLostIndent firstLine
        ⟨cur', st.prevIndent, st.isSet⟩ rest
    else
      let currentIndent := leadingWS line
      let prevRef :=
        if !st.isSet then
          let firstIndent := leadingWS firstLine
          if firstIndent.length % unit.length == 0 &&
             decide (currentIndent.length < firstIndent.length) &&
             !endsWithColon (getCodePart firstLine) then
            if endsWithOpener (getCodePart firstLine) then
              firstIndent ++ repeatL unit 1
            else
              firstIndent
          else
            currentIndent
        else
          st.prevIndent
      let indentDiff :=
        ((currentIndent.length : Int) - (prevRef.length : Int)).fdiv (unit.length : Int)
      let cur' := st.cur + indentDiff
      let newIndentLevel : Int := (base : Int) + cur'
      let out := repeatL unit (max 0 newIndentLevel).toNat ++ trimmedLine
      out :: indentLinesGo base unit hasLostIndent firstLine
        ⟨cur', currentIndent, true⟩ rest

/-- Translation of `indentLines` (src/extension.js:55).  The source reads `lines[0]` without a
guard; every caller passes the (always nonempty) result of a `split`, so the
`[]` case is unreachable and mapped to `[]`. -/
def indentLines (lines : List (List Char)) (baseIndentLevel : Nat)
    (indentUnit : List Char) (hasLostIndent : Bool) : List (List Char) :=
  match lines with
  | [] => []
  | firstLine :: rest =>
    let first := repeatL indentUnit baseIndentLevel ++ trimL firstLine
    let cur0 : Int :=
      if !(firstLine.head? == some '#') && endsWithOpener (getCodePart firstLine)
      then 1 else 0
    first :: indentLinesGo baseIndentLevel indentUnit hasLostIndent firstLine
      ⟨cur0, [], false⟩ rest

/-- JavaScript `String.prototype.replaceAll` with a plain-string pattern:
repeatedly replace the leftmost occurrence, never rescanning the replacement.
The source only calls it with a nonempty whitespace pattern (an indentation
unit); an empty pattern is returned unchanged. -/
def replaceAll (pat rep : List Char) (s : List Char) : List Char :=
  if h : pat ≠ [] ∧ pat.isPrefixOf s then
    rep ++ replaceAll pat rep (s.drop pat.length)
  else
    match s with
    | [] => []
    | c :: rest => c :: replaceAll pat rep rest
termination_by s.length
decreasing_by
  · have hpre : pat <+: s := List.isPrefixOf_iff_prefix.mp h.2
    have hlen : pat.length ≤ s.length := hpre.length_le
    have hpos : 0 < pat.length := List.length_pos.mpr h.1
    simp only [List.length_drop]
    omega
  · simp only [List.length_cons]
    omega

/-- Translation of `calculateIndentedLines` (src/extension.js:112).  Note the source computes
`hasLostIndent` from `processedLines`, before the unit normalization. -/
def calculateIndentedLines (processedLines : List (List Char))
    (baseIndentLevel : Nat) (indentUnit : List Char) : List (List Char) :=
  let hasLostIndent := processedLines.all (fun l => !hasLeadingWS l)
  let guessedIndentUnit := getGuessedIndentUnit processedLines indentUnit
  let normalizedLines := processedLines.map (replaceAll guessedIndentUnit indentUnit)
  indentLines normalizedLines baseIndentLevel indentUnit hasLostIndent

/-- Line-terminator test used by JavaScript multiline `^` anchors (`\n` and
`\r`; the Unicode separators do not occur in the modelled texts). -/
def isLineTerminator (c : Char) : Bool := c == '\n' || c == '\r'

/-- Test for the two prompt alternatives of the regex `/^(>>> |\.\.\. )/`
at the current position. -/
def isPromptStart (s : List Char) : Bool :=
  match s with
  | c1 :: c2 :: c3 :: c4 :: _ =>
    (c1 == '>' && c2 == '>' && c3 == '>' && c4 == ' ') ||
    (c1 == '.' && c2 == '.' && c3 == '.' && c4 == ' ')
  | _ => false

/-- The replacement `.replace(/^(>>> |\.\.\. )/gm, '')` of
src/extension.js:137: with the `g` and `m` flags, a match is a prompt standing
at the start of the string or right after a line terminator, and every match
is deleted.  `atStart` records whether the current position is such a line
start. -/
def stripPromptsGo (atStart : Bool) (s : List Char) : List Char :=
  match s with
  | [] => []
  | c :: rest =>
    if atStart && isPromptStart (c :: rest) then
      stripPromptsGo false (rest.drop 3)
    else
      c :: stripPromptsGo (isLineTerminator c) rest
termination_by s.length
decreasing_by
  · simp only [List.length_drop, List.length_cons]
    omega
  · simp only [List.length_cons]
    omega

/-- Whole-text multiline prompt strip (the string starts at a line start). -/
def stripPromptsGM (s : List Char) : List Char := stripPromptsGo true s

/-- JavaScript `clipboardText.includes "\r\n"`. -/
def containsCRLF : List Char → Bool
  | [] => false
  | '\r' :: '\n' :: _ => true
  | _ :: rest => containsCRLF rest

/-- The replacement `^(?:\r\n)+ -> ""` used when the separator is CRLF. -/
def dropLeadingCRLF : List Char → List Char
  | '\r' :: '\n' :: rest => dropLeadingCRLF rest
  | s => s

/-- JavaScript `String.prototype.split` with the single-character separator. -/
def splitChar (sep : Char) : List Char → List (List Char)
  | [] => [[]]
  | c :: rest =>
    if c = sep then
      [] :: splitChar sep rest
    else
      match splitChar sep rest with
      | [] => [[c]]
      | l :: ls => (c :: l) :: ls

/-- JavaScript `String.prototype.split` with the two-character separator
`"\r\n"`, scanning left to right. -/
def splitCRLF : List Char → List (List Char)
  | [] => [[]]
  | '\r' :: '\n' :: rest => [] :: splitCRLF rest
  | c :: rest =>
    match splitCRLF rest with
    | [] => [[c]]
    | l :: ls => (c :: l) :: ls

/-- Translation of `preprocessClipboardText` (src/extension.js:132): `trimEnd`, removal of
leading line-ending runs, the global multiline prompt strip, then the split on
the detected separator.  Returns the processed lines and the separator. -/
def preprocessClipboardText (clipboardText : List Char) :
    List (List Char) × List Char :=
  let crlf := containsCRLF clipboardText
  let t0 := trimEndL clipboardText
  let t1 := if crlf then dropLeadingCRLF t0 else t0.dropWhile (fun c => c == '\n')
  let processedText := stripPromptsGM t1
  if crlf then
    (splitCRLF processedText, ['\r', '\n'])
  else
    (splitChar '\n' processedText, ['\n'])

/-- Cursor/selection of the host editor, in pre-edit coordinates. -/
structure Selection where
  startLine : Nat
  startChar : Nat
  endLine : Nat
  endChar : Nat

/-- VS Code `selection.isEmpty`. -/
def Selection.isEmpty (s : Selection) : Bool :=
  s.startLine == s.endLine && s.startChar == s.endChar

/-- Translation of `getBaseIndentLevel` (src/extension.js:149).  The host guarantees the
cursor line index is valid; out-of-range lookups are modelled with `getD`. -/
def getBaseIndentLevel (doc : List (List Char)) (sel : Selection)
    (indentUnit : List Char) : Nat :=
  let startLine := sel.startLine
  let startCharacter := sel.startChar
  let currentLine := doc.getD startLine []
  let currentIndent := leadingWS currentLine
  if sel.isEmpty && decide (0 < currentIndent.length) &&
     currentIndent.length % indentUnit.length == 0 then
    currentIndent.length / indentUnit.length
  else if !sel.isEmpty && startCharacter == 0 then
    currentIndent.length / indentUnit.length
  else if startCharacter % indentUnit.length != 0 then
    currentIndent.length / indentUnit.length
  else if startCharacter % indentUnit.length == 0 && startCharacter != 0 then
    startCharacter / indentUnit.length
  else
    match startLine with
    | 0 => 0
    | n + 1 =>
      let prevLine := doc.getD n []
      if (trimL prevLine).isEmpty then 0
      else
        let prevIndent := leadingWS prevLine
        let prevIndentLevel := prevIndent.length / indentUnit.length
        if endsWithColon (getCodePart prevLine) then prevIndentLevel + 1
        else prevIndentLevel

/-- JavaScript `lines.join separator`. -/
def joinL (sep : List Char) : List (List Char) → List Char
  | [] => []
  | [l] => l
  | l :: l2 :: ls => l ++ sep ++ joinL sep (l2 :: ls)

/-- Translation of `adjustInsertTextForMidLinePaste` (src/extension.js:188). -/
def adjustInsertTextForMidLinePaste (doc : List (List Char)) (sel : Selection)
    (insertText : List Char) : List Char :=
  let startLine := sel.startLine
  let endLine := sel.endLine
  let endChar := sel.endChar
  let isSingleLine := startLine == endLine
  if 0 < sel.startChar then
    let line := doc.getD sel.startLine []
    let textBefore := line.take sel.startChar
    let textAfter := line.drop sel.startChar
    let textBeforeIsWhitespace := textBefore.all isWS
    let textAfterIsWhitespace := textAfter.all isWS
    if isSingleLine &&
       (!textBeforeIsWhitespace ||
        (endChar != line.length && !textAfterIsWhitespace)) then
      insertText.dropWhile isWS
    else
      insertText
  else
    insertText

/-- Translation of `removeSurroundingWhitespace` (src/extension.js:216), as a pure edit plan:
the range to delete and the resulting cursor position. -/
def removeSurroundingWhitespacePlan (doc : List (List Char)) (sel : Selection) :
    ((Nat × Nat) × (Nat × Nat)) × (Nat × Nat) :=
  let startText := doc.getD sel.startLine []
  let isStartWhitespace := (startText.take sel.startChar).all isWS
  let newStartCharacter :=
    if isStartWhitespace &&
       (sel.isEmpty || sel.startLine != sel.endLine ||
        (sel.startLine == sel.endLine && sel.endChar == startText.length)) then
      0
    else
      sel.startChar
  let endText := doc.getD sel.endLine []
  let isEndWhitespace := (endText.drop sel.endChar).all isWS
  let newEndCharacter := if isEndWhitespace then endText.length else sel.endChar
  (((sel.startLine, newStartCharacter), (sel.endLine, newEndCharacter)),
   (sel.startLine, newStartCharacter))

/-- The single batched edit a paste issues: a deletion range and an insertion. -/
structure PastePlan where
  deleteStart : Nat × Nat
  deleteEnd : Nat × Nat
  insertPos : Nat × Nat
  insertText : List Char

/-- Translation of `insertPastedText` (src/extension.js:254) as a pure edit plan. -/
def insertPastedTextPlan (doc : List (List Char)) (sel : Selection)
    (insertText : List Char) (separator : List Char) : PastePlan :=
  let isSingleLineWithNewline :=
    sel.startLine + 1 == sel.endLine && sel.endChar == 0
  let adjusted := adjustInsertTextForMidLinePaste doc sel insertText
  let adjusted := if isSingleLineWithNewline then adjusted ++ separator else adjusted
  let plan := removeSurroundingWhitespacePlan doc sel
  { deleteStart := plan.1.1
    deleteEnd := plan.1.2
    insertPos := plan.2
    insertText := adjusted }

/-- Language id of a Python buffer. -/
def pythonId : List Char := ['p', 'y', 't', 'h', 'o', 'n']

/-- Translation of `paste` (src/extension.js:328), returning the planned edit, or `none` when
the guards make the command a no-op (non-Python buffer, or clipboard text that
is empty after trimming). -/
def paste (languageId : List Char) (doc : List (List Char)) (sel : Selection)
    (opts : EditorOptions) (clipboardText : List Char) : Option PastePlan :=
  if languageId ≠ pythonId then none
  else if (trimL clipboardText).isEmpty then none
  else
    let pre := preprocessClipboardText clipboardText
    let processedLines := pre.1
    let separator := pre.2
    let indentUnit := getIndentUnit opts
    let baseIndentLevel := getBaseIndentLevel doc sel indentUnit
    let indentedLines := calculateIndentedLines processedLines baseIndentLevel indentUnit
    let insertText := joinL separator indentedLines
    some (insertPastedTextPlan doc sel insertText separator)

/-- VS Code `document.getText(range)`; the document end-of-line is modelled as
`"\n"`. -/
def getText (doc : List (List Char)) (sel : Selection) : List Char :=
  if sel.startLine == sel.endLine then
    ((doc.getD sel.startLine []).take sel.endChar).drop sel.startChar
  else
    ((doc.getD sel.startLine []).drop sel.startChar) ++ '\n' ::
      joinL ['\n']
        (((doc.drop (sel.startLine + 1)).take (sel.endLine - sel.startLine - 1)) ++
         [(doc.getD sel.endLine []).take sel.endChar])

/-- Scan loop of `cut` (src/extension.js:300-307) determining
`endLineToDedent`: `e` is the index of the head of the remaining lines, and the
counter is incremented before the blank/level tests, exactly as in the source. -/
def scanEndGo (unit : List Char) (baseIndentLevel : Nat) :
    Nat → List (List Char) → Nat
  | e, [] => e
  | e, line :: rest =>
    if (trimL line).isEmpty then
      scanEndGo unit baseIndentLevel (e + 1) rest
    else if (leadingWS line).length / unit.length ≤ baseIndentLevel then
      e + 1
    else
      scanEndGo unit baseIndentLevel (e + 1) rest

/-- Dedent replacement of `cut` (src/extension.js:311-318) for one line: the
range `(i, 0)-(i, currentIndent.length)` is replaced by
`currentIndent.slice(unitLength)` when the line carries at least one unit of
leading whitespace. -/
def dedentLine (unit : List Char) (line : List Char) : List Char :=
  let currentIndent := leadingWS line
  if unit.length ≤ currentIndent.length then
    currentIndent.drop unit.length ++ line.drop currentIndent.length
  else
    line

/-- Translation of `cut` (src/extension.js:272): the document lines after the dedent pass.
The deletion of the selected text itself and the clipboard write are separate
host edits in pre-edit coordinates and are not part of the dedent pass the
claims are about; a non-Python buffer, an empty selection, and a non-header
selection leave every line unchanged. -/
def cut (languageId : List Char) (doc : List (List Char)) (sel : Selection)
    (unit : List Char) : List (List Char) :=
  if languageId ≠ pythonId then doc
  else if sel.isEmpty then doc
  else
    let selectedText := getText doc sel
    let isSingleLine := sel.startLine == sel.endLine
    let isSingleLineWithNewline := sel.startLine + 1 == sel.endLine && sel.endChar == 0
    if !((isSingleLine || isSingleLineWithNewline) &&
         endsWithColon (getCodePart selectedText)) then
      doc
    else
      let totalLines := doc.length
      let startLine := sel.startLine
      let baseIndent := leadingWS (doc.getD startLine [])
      let baseIndentLevel := baseIndent.length / unit.length
      let startLineToDedent := startLine + 1
      let endLineToDedent :=
        scanEndGo unit baseIndentLevel startLineToDedent (doc.drop startLineToDedent)
      if startLineToDedent < totalLines then
        doc.mapIdx (fun i line =>
          if startLineToDedent ≤ i ∧ i < endLineToDedent - 1 then
            dedentLine unit line
          else
            line)
      else
        doc

/-! ### Specification-side definitions

These definitions follow the wording of the specification (or, for corrected
claims, its amended wording); the theorems below compare them against the
definitions translated from the source. -/

/-- Stripping of a single leading REPL prompt from one line, following the
amended wording of the prompt-stripping policy. -/
def stripPromptOnce (l : List Char) : List Char :=
  if isPromptStart l then l.drop 4 else l

/-- Lost-indentation rendering as the amended claim describes it: each
non-blank line is rendered at `base + lvl`, and `lvl` is incremented exactly
when the line's code part ends with a colon and its trimmed content does not
start with a comment marker. -/
def lostModeSpec (base : Nat) (unit : List Char) : Nat → List (List Char) → List (List Char)
  | _, [] => []
  | lvl, line :: rest =>
    let t := trimL line
    if t.isEmpty then
      [] :: lostModeSpec base unit lvl rest
    else
      let lvl' :=
        if !(t.head? == some '#') && endsWithColon (getCodePart t) then lvl + 1
        else lvl
      (repeatL unit (base + lvl) ++ t) :: lostModeSpec base unit lvl' rest

/-- Initial relative level of `indentLines` (src/extension.js:58-59), as a
natural number. -/
def initialLevel (firstLine : List Char) : Nat :=
  if !(firstLine.head? == some '#') && endsWithOpener (getCodePart firstLine)
  then 1 else 0

/-- Variant of `calculateIndentedLines` following the specification's wording
for claim C8: `hasLostIndent` is the predicate "every line of the normalized
block has no leading whitespace". -/
def calculateIndentedLinesSpec (processedLines : List (List Char))
    (baseIndentLevel : Nat) (indentUnit : List Char) : List (List Char) :=
  let guessedIndentUnit := getGuessedIndentUnit processedLines indentUnit
  let normalizedLines := processedLines.map (replaceAll guessedIndentUnit indentUnit)
  let hasLostIndent := normalizedLines.all (fun l => !hasLeadingWS l)
  indentLines normalizedLines baseIndentLevel indentUnit hasLostIndent

/-- A line that is correctly indented in the unit `unit`: its leading
whitespace is a whole number of units (as a string), it carries no trailing
whitespace, and a blank line is the empty line.  This is the "already
correctly indented in the host's indentation unit" hypothesis of claim C5. -/
def wellLine (unit : List Char) (l : List Char) : Bool :=
  (l == repeatL unit ((leadingWS l).length / unit.length) ++ trimL l) &&
  (!(trimL l).isEmpty || l.isEmpty)

/-- First non-blank line of a block, used to state structural consistency. -/
def firstNonBlank (ls : List (List Char)) : Option (List Char) :=
  ls.find? (fun l => !(trimL l).isEmpty)

/-- Consistent relative structure of a block whose first line sits at level
`b` (claim C5's "the block's relative structure is consistent"): a
block-header first line is followed (blank lines apart) by a line exactly one
level deeper, and a non-header first line is not followed by a deeper line. -/
def structOK (unit : List Char) (b : Nat) (first : List Char)
    (rest : List (List Char)) : Bool :=
  match firstNonBlank rest with
  | none => true
  | some lj =>
    let kj := (leadingWS lj).length / unit.length
    if endsWithOpener (getCodePart first) then kj == b + 1
    else decide (kj ≤ b)

/-! ### Supporting lemmas -/

theorem minList_le_of_mem {xs : List Nat} {x : Nat} (h : x ∈ xs) :
    minList xs ≤ x := by
  match xs, h with
  | y :: ys, h =>
    have aux : ∀ (zs : List Nat) (a : Nat),
        zs.foldl Nat.min a ≤ a ∧ ∀ z ∈ zs, zs.foldl Nat.min a ≤ z := by
      intro zs
      induction zs with
      | nil => intro a; exact ⟨Nat.le_refl a, by intro z hz; cases hz⟩
      | cons z zs ih =>
        intro a
        refine ⟨?_, ?_⟩
        · exact Nat.le_trans (ih (Nat.min a z)).1 (Nat.min_le_left a z)
        · intro w hw
          rcases List.mem_cons.mp hw with rfl | hw
          · exact Nat.le_trans (ih (Nat.min a w)).1 (Nat.min_le_right a w)
          · exact (ih (Nat.min a z)).2 w hw
    rcases List.mem_cons.mp h with rfl | h
    · exact (aux ys x).1
    · exact (aux ys y).2 x h

theorem getGuessedIndentUnit_fallback (lines : List (List Char))
    (unit : List Char)
    (h1 : ((lines.drop 1).filter hasLeadingWS).isEmpty = false)
    (h2 : ¬(0 < minList (((lines.drop 1).filter hasLeadingWS).map spaceCount) ∧
          minList (((lines.drop 1).filter hasLeadingWS).map spaceCount) ≤ 4)) :
    getGuessedIndentUnit lines unit = unit := by
  unfold getGuessedIndentUnit
  simp only [h1, Bool.false_eq_true, if_false, if_neg h2]

/-! ### Claim theorems -/

/-- Claim C6: when none of the earlier base-level rules apply (empty selection,
cursor at column 0, current line with no indent or an indent that is not a
multiple of the unit), the base indentation level is 0 when there is no
previous line or the previous line is blank, and otherwise the previous
line's indent level plus one exactly when its code part ends with a colon. -/
theorem base_level_from_previous_line (doc : List (List Char)) (sel : Selection)
    (unit : List Char) (he : sel.isEmpty = true) (hc : sel.startChar = 0)
    (hind : (leadingWS (doc.getD sel.startLine [])).length = 0 ∨
            (leadingWS (doc.getD sel.startLine [])).length % unit.length ≠ 0) :
    getBaseIndentLevel doc sel unit =
      match sel.startLine with
      | 0 => 0
      | n + 1 =>
        if (trimL (doc.getD n [])).isEmpty then 0
        else
          (leadingWS (doc.getD n [])).length / unit.length +
            (if endsWithColon (getCodePart (doc.getD n [])) then 1 else 0) := by
  unfold getBaseIndentLevel
  simp only []
  rw [hc]
  have h1 : (sel.isEmpty && decide (0 < (leadingWS (doc.getD sel.startLine [])).length) &&
      ((leadingWS (doc.getD sel.startLine [])).length % unit.length == 0)) = false := by
    rcases hind with h | h
    · rw [h, (by rfl : decide ((0 : Nat) < 0) = false), Bool.and_false, Bool.false_and]
    · have hb : ((leadingWS (doc.getD sel.startLine [])).length % unit.length == 0) =
          false := beq_eq_false_iff_ne.mpr h
      rw [hb, Bool.and_false]
  have h2 : (!sel.isEmpty && ((0 : Nat) == 0)) = false := by
    rw [he]
    rfl
  have h3 : (((0 : Nat) % unit.length != 0)) = false := by
    rw [Nat.zero_mod]
    rfl
  have h4 : (((0 : Nat) % unit.length == 0) && ((0 : Nat) != 0)) = false := by
    rw [Bool.and_comm]
    rfl
  rw [h1, h2, h3, h4]
  simp only [Bool.false_eq_true, if_false]
  cases sel.startLine with
  | zero => rfl
  | succ n =>
    simp only []
    by_cases hb : (trimL (doc.getD n [])).isEmpty = true
    · rw [if_pos hb, if_pos hb]
    · rw [if_neg hb, if_neg hb]
      by_cases hcol : endsWithColon (getCodePart (doc.getD n [])) = true
      · rw [if_pos hcol, if_pos hcol]
      · rw [if_neg hcol, if_neg hcol, Nat.add_zero]

/-- Witness for C6 at a concrete editor state: empty selection at column 0 of
line 1, whose previous line is the colon-terminated `if x:` at level 0. -/
theorem base_level_from_previous_line_witness :
    getBaseIndentLevel [("if x:".data), ("y".data)] ⟨1, 0, 1, 0⟩ ("  ".data) =
      if (trimL (List.getD [("if x:".data), ("y".data)] 0 [])).isEmpty then 0
      else
        (leadingWS (List.getD [("if x:".data), ("y".data)] 0 [])).length / ("  ".data).length +
          (if endsWithColon (getCodePart (List.getD [("if x:".data), ("y".data)] 0 []))
           then 1 else 0) :=
  base_level_from_previous_line [("if x:".data), ("y".data)] ⟨1, 0, 1, 0⟩
    ("  ".data) (by decide) rfl (by decide)

/-- Claim C9: clipboard text that is empty after trimming makes the paste
command a no-op (no edit is planned at all). -/
theorem paste_empty_clipboard_noop (languageId : List Char)
    (doc : List (List Char)) (sel : Selection) (opts : EditorOptions)
    (clipboardText : List Char) (h : (trimL clipboardText).isEmpty = true) :
    paste languageId doc sel opts clipboardText = none := by
  unfold paste
  by_cases hl : languageId ≠ pythonId
  · rw [if_pos hl]
  · rw [if_neg hl, if_pos h]

/-- Witness for C9: pasting a whitespace-only clipboard into a Python buffer
plans no edit. -/
theorem paste_empty_clipboard_noop_witness :
    paste pythonId [("x".data)] ⟨0, 0, 0, 0⟩ ⟨4, true⟩ (" \t ".data) = none :=
  paste_empty_clipboard_noop pythonId [("x".data)] ⟨0, 0, 0, 0⟩ ⟨4, true⟩
    (" \t ".data) (by decide)

/-- Claim C1 (failing input): cutting the single block-header line `if x:`
when its dependent block runs to the end of the document.  The scan stops at
the end of the document, but the dedent loop excludes index
`endLineToDedent - 1`, so the final line `    b` keeps its indentation even
though its indent level is strictly greater than the cut line's level; the
claim (and the spec) say every line of the run is dedented. -/
theorem cut_dedent_misses_last_line_at_eof :
    cut pythonId [("if x:".data), ("    a".data), ("    b".data)] ⟨0, 0, 0, 5⟩
      ("    ".data) =
      [("if x:".data), ("a".data), ("    b".data)] := by decide

/-- Claim C4 (counterexample): a block whose only indented line is
tab-indented has minimum leading-space count 0, and the fallback returns the
host unit (here two spaces), not a 4-space default. -/
theorem guessed_unit_fallback_cex :
    getGuessedIndentUnit [("a".data), ("\tb".data)] ("  ".data) = ("  ".data) ∧
    getGuessedIndentUnit [("a".data), ("\tb".data)] ("  ".data) ≠ ("    ".data) := by
  decide

/-- Claim C4 (amended): when some line after the first starts with whitespace
but the minimum leading-space count is not between 1 and 4, the guessed
source indentation unit falls back to the host's indentation unit (the
`indentUnit` argument), not to a literal 4-space string. -/
theorem guessed_unit_fallback_is_host_unit (lines : List (List Char))
    (unit : List Char)
    (h1 : ((lines.drop 1).filter hasLeadingWS).isEmpty = false)
    (h2 : ¬(0 < minList (((lines.drop 1).filter hasLeadingWS).map spaceCount) ∧
          minList (((lines.drop 1).filter hasLeadingWS).map spaceCount) ≤ 4)) :
    getGuessedIndentUnit lines unit = unit :=
  getGuessedIndentUnit_fallback lines unit h1 h2

/-- Witness for the amended C4 at a concrete input (minimum count 5). -/
theorem guessed_unit_fallback_is_host_unit_witness :
    getGuessedIndentUnit [("a".data), ("     b".data)] ("\t".data) = ("\t".data) :=
  guessed_unit_fallback_is_host_unit [("a".data), ("     b".data)] ("\t".data)
    (by decide) (by decide)

/-- Claim C10: when some line after the first starts with whitespace but none
of the whitespace-starting lines begins with a space character, the minimum
leading-space count computes to 0, the 1-to-4 branch is not taken, and the
guessed unit is the host's indentation unit. -/
theorem guessed_unit_tab_indent_host_unit (lines : List (List Char))
    (unit : List Char)
    (h1 : ∃ l ∈ lines.drop 1, hasLeadingWS l = true)
    (h2 : ∀ l ∈ lines.drop 1, hasLeadingWS l = true → l.head? ≠ some ' ') :
    minList (((lines.drop 1).filter hasLeadingWS).map spaceCount) = 0 ∧
    getGuessedIndentUnit lines unit = unit := by
  obtain ⟨l0, hl0m, hl0⟩ := h1
  have hmem : l0 ∈ (lines.drop 1).filter hasLeadingWS :=
    List.mem_filter.mpr ⟨hl0m, hl0⟩
  have hne : ((lines.drop 1).filter hasLeadingWS).isEmpty = false := by
    rcases hfe : ((lines.drop 1).filter hasLeadingWS) with _ | _
    · rw [hfe] at hmem; cases hmem
    · rfl
  have hzero : spaceCount l0 = 0 := by
    rcases hl : l0 with _ | ⟨c, rest⟩
    · rw [hl] at hl0; cases hl0
    · have hne' : c ≠ ' ' := by
        have := h2 l0 hl0m hl0
        rw [hl] at this
        intro hcc
        exact this (by subst hcc; rfl)
      have hc' : (c == ' ') = false := beq_eq_false_iff_ne.mpr hne'
      unfold spaceCount
      rw [List.takeWhile_cons, hc']
      rfl
  have hmin : minList (((lines.drop 1).filter hasLeadingWS).map spaceCount) = 0 := by
    have hle : minList (((lines.drop 1).filter hasLeadingWS).map spaceCount) ≤
        spaceCount l0 :=
      minList_le_of_mem (List.mem_map.mpr ⟨l0, hmem, rfl⟩)
    omega
  refine ⟨hmin, getGuessedIndentUnit_fallback lines unit hne ?_⟩
  rw [hmin]
  omega

/-- Witness for C10: a block whose indented lines are all tab-indented keeps
the host unit. -/
theorem guessed_unit_tab_indent_host_unit_witness :
    minList ((([("x".data), ("\t\ty".data)].drop 1).filter hasLeadingWS).map
      spaceCount) = 0 ∧
    getGuessedIndentUnit [("x".data), ("\t\ty".data)] ("\t".data) = ("\t".data) :=
  guessed_unit_tab_indent_host_unit [("x".data), ("\t\ty".data)] ("\t".data)
    ⟨("\t\ty".data), by decide, by decide⟩ (by decide)

theorem indentLinesGo_lost_eq (base : Nat) (unit : List Char)
    (firstLine : List Char) :
    ∀ (ls : List (List Char)) (st : ILState) (lvl : Nat), st.cur = (lvl : Int) →
      indentLinesGo base unit true firstLine st ls = lostModeSpec base unit lvl ls := by
  intro ls
  induction ls with
  | nil => intro st lvl h; rfl
  | cons l rest ih =>
    intro st lvl h
    simp only [indentLinesGo, lostModeSpec]
    by_cases hb : (trimL l).isEmpty
    · simp only [hb, if_true]
      exact congrArg _ (ih st lvl h)
    · simp only [hb, Bool.false_eq_true, if_false, if_true]
      have hto : ((base : Int) + st.cur).toNat = base + lvl := by
        rw [h]; omega
      rw [hto]
      refine congrArg _ ?_
      by_cases hcol : (!(trimL l).head? == some '#' &&
          endsWithColon (getCodePart (trimL l))) = true
      · simp only [hcol, if_true]
        exact ih _ (lvl + 1) (by rw [h]; push_cast; ring)
      · simp only [hcol, if_false, Bool.false_eq_true]
        exact ih _ lvl h

/-- Claim C3 (counterexample): in lost-indentation mode a line whose code part
ends with `(` does not increment the level — the line after `f(` is rendered
at the same level, whereas the claim (increment on any of `:`/`(`/`[`
and the opening curly bracket) predicts one extra unit of indentation. -/
theorem lost_mode_bracket_no_increment_cex :
    indentLines [("a".data), ("f(".data), ("x)".data)] 0 ("  ".data) true =
      [("a".data), ("f(".data), ("x)".data)] ∧
    indentLines [("a".data), ("f(".data), ("x)".data)] 0 ("  ".data) true ≠
      [("a".data), ("f(".data), ("  x)".data)] := by decide

/-- Claim C3 (amended): in lost-indentation mode each subsequent non-blank
line is rendered at `base + currentRelativeLevel`, and the level is
incremented after a line exactly when that line's code part ends with a
colon (`:` only — the bracket characters do not trigger the increment here)
and its trimmed content does not start with `#`.  `lostModeSpec` is that
rendering rule, and the initial relative level is 1 exactly when the first
line is a block header (there the full `:`/`(`/`[`/curly set applies). -/
theorem lost_mode_renders_with_colon_increment (firstLine : List Char)
    (rest : List (List Char)) (base : Nat) (unit : List Char) :
    indentLines (firstLine :: rest) base unit true =
      (repeatL unit base ++ trimL firstLine) ::
        lostModeSpec base unit (initialLevel firstLine) rest := by
  unfold indentLines initialLevel
  simp only []
  refine congrArg _ ?_
  apply indentLinesGo_lost_eq
  split
  · norm_num
  · norm_num

theorem indentLinesGo_length (base : Nat) (unit : List Char) (m : Bool)
    (firstLine : List Char) :
    ∀ (ls : List (List Char)) (st : ILState),
      (indentLinesGo base unit m firstLine st ls).length = ls.length := by
  intro ls
  induction ls with
  | nil => intro st; rfl
  | cons l rest ih =>
    intro st
    simp only [indentLinesGo]
    by_cases hb : (trimL l).isEmpty
    · rw [if_pos hb]
      simp only [List.length_cons, ih]
    · rw [if_neg hb]
      by_cases hm : m = true
      · rw [if_pos hm]
        simp only [List.length_cons, ih]
      · rw [if_neg hm]
        simp only [List.length_cons, ih]

theorem indentLinesGo_blank_get (base : Nat) (unit : List Char) (m : Bool)
    (firstLine : List Char) :
    ∀ (ls : List (List Char)) (st : ILState) (j : Nat),
      (trimL (ls.getD j [])).isEmpty = true → j < ls.length →
      (indentLinesGo base unit m firstLine st ls)[j]? = some [] := by
  intro ls
  induction ls with
  | nil =>
    intro st j _ hj
    simp at hj
  | cons l rest ih =>
    intro st j hblank hj
    cases j with
    | zero =>
      have hblank0 : (trimL l).isEmpty = true := by
        simpa using hblank
      simp only [indentLinesGo]
      rw [if_pos hblank0, List.getElem?_cons_zero]
    | succ j' =>
      have hblank' : (trimL (rest.getD j' [])).isEmpty = true := by
        simpa using hblank
      have hj' : j' < rest.length := by
        simpa using hj
      simp only [indentLinesGo]
      by_cases hb : (trimL l).isEmpty = true
      · rw [if_pos hb, List.getElem?_cons_succ]
        exact ih _ j' hblank' hj'
      · rw [if_neg hb]
        by_cases hm : m = true
        · rw [if_pos hm, List.getElem?_cons_succ]
          exact ih _ j' hblank' hj'
        · rw [if_neg hm, List.getElem?_cons_succ]
          exact ih _ j' hblank' hj'

/-- Claim C7 (counterexample): a blank FIRST line is rendered as
`unit × base` -- at base level 1 with a two-space unit the blank first line
comes out as two spaces, not as the empty line the claim promises for every
blank input line. -/
theorem blank_first_line_receives_indent_cex :
    indentLines [([] : List Char), ("x".data)] 1 ("  ".data) false =
      [("  ".data), ("  x".data)] ∧ ("  ".data) ≠ ([] : List Char) := by decide

/-- Claim C7 (amended): in both modes the output has exactly one line per
input line in the same order; every input line AFTER THE FIRST that is blank
after trimming is emitted as the empty line; and processing a blank line
leaves the tracked state (level, reference indent, seen-flag) untouched.
The first line however is always rendered as `unit × base` plus its trimmed
content, so a blank first line receives the base indentation (empty only when
the base level is 0 or the unit is empty). -/
theorem blank_lines_preserved_after_first :
    (∀ (lines : List (List Char)) (base : Nat) (unit : List Char) (m : Bool),
      (indentLines lines base unit m).length = lines.length) ∧
    (∀ (lines : List (List Char)) (base : Nat) (unit : List Char) (m : Bool)
      (i : Nat), 0 < i → i < lines.length →
      (trimL (lines.getD i [])).isEmpty = true →
      (indentLines lines base unit m)[i]? = some []) ∧
    (∀ (base : Nat) (unit : List Char) (m : Bool) (firstLine : List Char)
      (st : ILState) (l : List Char) (rest : List (List Char)),
      (trimL l).isEmpty = true →
      indentLinesGo base unit m firstLine st (l :: rest) =
        [] :: indentLinesGo base unit m firstLine st rest) := by
  refine ⟨?_, ?_, ?_⟩
  · intro lines base unit m
    cases lines with
    | nil => rfl
    | cons firstLine rest =>
      simp [indentLines, indentLinesGo_length]
  · intro lines base unit m i hi hlen hblank
    cases lines with
    | nil => simp at hlen
    | cons firstLine rest =>
      cases i with
      | zero => omega
      | succ j =>
        have hblank' : (trimL (rest.getD j [])).isEmpty = true := by
          simpa using hblank
        have hj : j < rest.length := by
          simpa using hlen
        simp only [indentLines, List.getElem?_cons_succ]
        exact indentLinesGo_blank_get base unit m firstLine rest _ j hblank' hj
  · intro base unit m firstLine st l rest hblank
    simp [indentLinesGo, hblank]

/-- Witness for the amended C7: the blank second line of a two-line block is
emitted as the empty line. -/
theorem blank_lines_preserved_after_first_witness :
    (indentLines [("a".data), ([] : List Char)] 2 (" ".data) true)[1]? = some [] :=
  blank_lines_preserved_after_first.2.1 [("a".data), []] 2 (" ".data) true 1
    (by decide) (by decide) (by decide)

theorem hasLeadingWS_replaceAll (pat rep l : List Char) (hp : pat ≠ [])
    (hpw : pat.all isWS = true) (hr : rep ≠ []) (hrw : rep.all isWS = true) :
    hasLeadingWS (replaceAll pat rep l) = hasLeadingWS l := by
  rw [replaceAll]
  split
  · rename_i h
    obtain ⟨-, hpre⟩ := h
    obtain ⟨t, rfl⟩ := List.isPrefixOf_iff_prefix.mp hpre
    rcases pat with _ | ⟨p0, ps⟩
    · exact absurd rfl hp
    rcases rep with _ | ⟨r0, rs⟩
    · exact absurd rfl hr
    have h1 : isWS r0 = true := by
      simp only [List.all_cons, Bool.and_eq_true] at hrw
      exact hrw.1
    have h2 : isWS p0 = true := by
      simp only [List.all_cons, Bool.and_eq_true] at hpw
      exact hpw.1
    simp [hasLeadingWS, h1, h2]
  · cases l with
    | nil => rfl
    | cons c rest => simp [hasLeadingWS]

theorem getGuessedIndentUnit_ws (lines : List (List Char)) (unit : List Char)
    (hu : unit ≠ []) (huw : unit.all isWS = true) :
    getGuessedIndentUnit lines unit ≠ [] ∧
    (getGuessedIndentUnit lines unit).all isWS = true := by
  have halt : getGuessedIndentUnit lines unit = unit ∨
      ∃ m, 0 < m ∧ getGuessedIndentUnit lines unit = List.replicate m ' ' := by
    simp only [getGuessedIndentUnit]
    by_cases h1 : (List.filter hasLeadingWS (List.drop 1 lines)).isEmpty = true
    · rw [if_pos h1]
      left
      rfl
    · rw [if_neg h1]
      by_cases h2 : 0 < minList (List.map spaceCount
            (List.filter hasLeadingWS (List.drop 1 lines))) ∧
          minList (List.map spaceCount
            (List.filter hasLeadingWS (List.drop 1 lines))) ≤ 4
      · rw [if_pos h2]
        right
        exact ⟨_, h2.1, rfl⟩
      · rw [if_neg h2]
        left
        rfl
  rcases halt with h | ⟨m, hm, h⟩
  · rw [h]
    exact ⟨hu, huw⟩
  · rw [h]
    refine ⟨?_, ?_⟩
    · intro hnil
      have := congrArg List.length hnil
      simp at this
      omega
    · rw [List.all_eq_true]
      intro c hc
      rw [List.eq_of_mem_replicate hc]
      decide

/-- Claim C8: the `hasLostIndent` flag is computed once, before the
reconstruction algorithm is invoked, and (for a nonempty whitespace host
unit) testing "no line has leading whitespace" on the pre-normalization lines
coincides with testing it on the normalized block, so `calculateIndentedLines`
agrees with the specification's variant that checks the normalized block. -/
theorem hasLostIndent_matches_normalized_block (processedLines : List (List Char))
    (base : Nat) (unit : List Char) (hu : unit ≠ []) (huw : unit.all isWS = true) :
    calculateIndentedLines processedLines base unit =
      calculateIndentedLinesSpec processedLines base unit := by
  obtain ⟨hg, hgw⟩ := getGuessedIndentUnit_ws processedLines unit hu huw
  have hflag : ∀ (L : List (List Char)) (g : List Char), g ≠ [] →
      g.all isWS = true →
      (L.map (replaceAll g unit)).all (fun l => !hasLeadingWS l) =
        L.all (fun l => !hasLeadingWS l) := by
    intro L g hgg hggw
    induction L with
    | nil => rfl
    | cons l rest ih =>
      simp only [List.map_cons, List.all_cons]
      rw [hasLeadingWS_replaceAll _ _ _ hgg hggw hu huw, ih]
  unfold calculateIndentedLines calculateIndentedLinesSpec
  simp only []
  rw [hflag processedLines (getGuessedIndentUnit processedLines unit) hg hgw]

/-- Witness for C8 at a concrete two-line block. -/
theorem hasLostIndent_matches_normalized_block_witness :
    calculateIndentedLines [("if a:".data), ("  b".data)] 0 ("    ".data) =
      calculateIndentedLinesSpec [("if a:".data), ("  b".data)] 0 ("    ".data) :=
  hasLostIndent_matches_normalized_block [("if a:".data), ("  b".data)] 0
    ("    ".data) (by decide) (by decide)

theorem stripPromptsGo_nil (b : Bool) : stripPromptsGo b [] = [] := by
  rw [stripPromptsGo]

theorem stripPromptsGo_cons_not (b : Bool) (c : Char) (rest : List Char)
    (h : (b && isPromptStart (c :: rest)) = false) :
    stripPromptsGo b (c :: rest) = c :: stripPromptsGo (isLineTerminator c) rest := by
  rw [stripPromptsGo]
  simp [h]

theorem stripPromptsGo_cons_prompt (c : Char) (rest : List Char)
    (h : isPromptStart (c :: rest) = true) :
    stripPromptsGo true (c :: rest) = stripPromptsGo false (rest.drop 3) := by
  rw [stripPromptsGo]
  simp [h]

theorem stripPromptsGo_true_eq (s : List Char) :
    stripPromptsGo true s = stripPromptsGo false (stripPromptOnce s) := by
  cases s with
  | nil =>
    rw [show stripPromptOnce [] = [] from rfl, stripPromptsGo_nil, stripPromptsGo_nil]
  | cons c rest =>
    by_cases h : isPromptStart (c :: rest) = true
    · rw [stripPromptsGo_cons_prompt c rest h, stripPromptOnce, if_pos h]
      rfl
    · have hb : isPromptStart (c :: rest) = false := by
        revert h
        cases isPromptStart (c :: rest) <;> simp
      rw [stripPromptOnce, if_neg (by simp [hb]),
          stripPromptsGo_cons_not true c rest (by simp [hb]),
          stripPromptsGo_cons_not false c rest (by simp)]

theorem stripPromptsGo_false_append (m t : List Char)
    (hm : ∀ c ∈ m, isLineTerminator c = false) :
    stripPromptsGo false (m ++ t) = m ++ stripPromptsGo false t := by
  induction m with
  | nil => rfl
  | cons c m' ih =>
    have hc : isLineTerminator c = false := hm c (List.mem_cons_self c m')
    rw [List.cons_append, stripPromptsGo_cons_not false c (m' ++ t) (by simp), hc,
        ih (fun x hx => hm x (List.mem_cons_of_mem c hx)), List.cons_append]

theorem stripPromptsGo_false_id (m : List Char)
    (hm : ∀ c ∈ m, isLineTerminator c = false) :
    stripPromptsGo false m = m := by
  have := stripPromptsGo_false_append m [] hm
  simpa [stripPromptsGo_nil] using this

theorem stripPromptsGo_false_newline (t : List Char) :
    stripPromptsGo false ('\n' :: t) = '\n' :: stripPromptsGo true t := by
  rw [stripPromptsGo_cons_not false '\n' t (by simp)]
  norm_num [isLineTerminator]

theorem isPromptStart_length {s : List Char} (h : isPromptStart s = true) :
    4 ≤ s.length := by
  rcases s with _ | ⟨a, _ | ⟨b, _ | ⟨c, _ | ⟨d, r⟩⟩⟩⟩
  · simp [isPromptStart] at h
  · simp [isPromptStart] at h
  · simp [isPromptStart] at h
  · simp [isPromptStart] at h
  · simp

theorem isPromptStart_append_sep (l t : List Char) (hnl : '\n' ∉ l) :
    isPromptStart (l ++ '\n' :: t) = isPromptStart l := by
  rcases l with _ | ⟨a, _ | ⟨b, _ | ⟨c, _ | ⟨d, l'⟩⟩⟩⟩
  · rcases t with _ | ⟨t1, _ | ⟨t2, _ | ⟨t3, r⟩⟩⟩ <;> simp [isPromptStart]
  · rcases t with _ | ⟨t1, _ | ⟨t2, r⟩⟩ <;> simp [isPromptStart]
  · rcases t with _ | ⟨t1, r⟩ <;> simp [isPromptStart]
  · simp [isPromptStart]
  · simp [isPromptStart]

theorem stripPromptOnce_append_sep (l t : List Char) (hnl : '\n' ∉ l) :
    stripPromptOnce (l ++ '\n' :: t) = stripPromptOnce l ++ '\n' :: t := by
  unfold stripPromptOnce
  rw [isPromptStart_append_sep l t hnl]
  by_cases h : isPromptStart l = true
  · rw [if_pos h, if_pos h, List.drop_append_of_le_length (isPromptStart_length h)]
  · have hb : isPromptStart l = false := by
      revert h
      cases isPromptStart l <;> simp
    rw [hb]
    simp

theorem stripPromptOnce_subset (l : List Char) : stripPromptOnce l ⊆ l := by
  unfold stripPromptOnce
  split
  · exact List.drop_subset 4 l
  · exact fun _ h => h

theorem splitChar_no_sep (a : List Char) (h : '\n' ∉ a) :
    splitChar '\n' a = [a] := by
  induction a with
  | nil => rfl
  | cons c a' ih =>
    have hc : ¬ c = '\n' := fun hcc => h (by rw [hcc]; exact List.mem_cons_self _ _)
    rw [splitChar, if_neg hc, ih (fun hx => h (List.mem_cons_of_mem c hx))]

theorem splitChar_append_sep (a b : List Char) (h : '\n' ∉ a) :
    splitChar '\n' (a ++ '\n' :: b) = a :: splitChar '\n' b := by
  induction a with
  | nil =>
    rw [List.nil_append, splitChar, if_pos rfl]
  | cons c a' ih =>
    have hc : ¬ c = '\n' := fun hcc => h (by rw [hcc]; exact List.mem_cons_self _ _)
    rw [List.cons_append, splitChar, if_neg hc,
        ih (fun hx => h (List.mem_cons_of_mem c hx))]

/-- Claim C2 (counterexample): pasting the two-line REPL transcript
`>>> x = 1\n>>> y = 2` strips the prompt from BOTH lines (the replacement is
global and multiline), not only from the first matching occurrence as the
claim states (which would leave `>>> y = 2` on the second line). -/
theorem preprocess_strips_prompts_every_line_cex :
    (preprocessClipboardText (">>> x = 1\n>>> y = 2".data)).1 =
      [("x = 1".data), ("y = 2".data)] ∧
    (preprocessClipboardText (">>> x = 1\n>>> y = 2".data)).1 ≠
      [("x = 1".data), (">>> y = 2".data)] := by
  have hstrip : stripPromptsGM (">>> x = 1\n>>> y = 2".data) =
      ("x = 1\ny = 2".data) := by
    have hsplit : (">>> x = 1\n>>> y = 2".data) =
        (">>> x = 1".data) ++ '\n' :: (">>> y = 2".data) := by decide
    have ho1 : stripPromptOnce (">>> x = 1".data) = ("x = 1".data) := by decide
    have ho2 : stripPromptOnce (">>> y = 2".data) = ("y = 2".data) := by decide
    unfold stripPromptsGM
    rw [hsplit, stripPromptsGo_true_eq,
        stripPromptOnce_append_sep _ _ (by decide), ho1,
        stripPromptsGo_false_append _ _ (by decide),
        stripPromptsGo_false_newline, stripPromptsGo_true_eq, ho2,
        stripPromptsGo_false_id _ (by decide)]
    decide
  have h1 : (preprocessClipboardText (">>> x = 1\n>>> y = 2".data)).1 =
      [("x = 1".data), ("y = 2".data)] := by
    unfold preprocessClipboardText
    simp only []
    rw [show containsCRLF (">>> x = 1\n>>> y = 2".data) = false by decide]
    simp only [Bool.false_eq_true, if_false]
    rw [show List.dropWhile (fun c => c == '\n')
          (trimEndL (">>> x = 1\n>>> y = 2".data)) =
        (">>> x = 1\n>>> y = 2".data) by decide]
    rw [hstrip]
    decide
  exact ⟨h1, by rw [h1]; decide⟩

/-- Claim C2 (amended): the `/^(>>> |\.\.\. )/gm` pass, applied to the whole
clipboard text before line-splitting, strips one leading `>>> ` or `... `
prompt from the start of EVERY line (not only from the first matching
occurrence): on a text assembled from terminator-free lines, stripping then
splitting equals stripping one prompt from each line. -/
theorem stripPrompts_acts_per_line (ls : List (List Char)) (hne : ls ≠ [])
    (h : ∀ l ∈ ls, ('\n' ∉ l) ∧ ('\r' ∉ l)) :
    splitChar '\n' (stripPromptsGM (joinL ['\n'] ls)) = ls.map stripPromptOnce := by
  induction ls with
  | nil => exact absurd rfl hne
  | cons l rest ih =>
    have hterm : ∀ c ∈ stripPromptOnce l, isLineTerminator c = false := by
      intro c hc
      have hcl := stripPromptOnce_subset l hc
      have h1 := (h l (List.mem_cons_self _ _)).1
      have h2 := (h l (List.mem_cons_self _ _)).2
      have hc1 : c ≠ '\n' := fun hh => h1 (hh ▸ hcl)
      have hc2 : c ≠ '\r' := fun hh => h2 (hh ▸ hcl)
      simp [isLineTerminator, hc1, hc2]
    have hnosep : '\n' ∉ stripPromptOnce l := by
      intro hmem
      exact (h l (List.mem_cons_self _ _)).1 (stripPromptOnce_subset l hmem)
    cases rest with
    | nil =>
      unfold stripPromptsGM
      rw [joinL, stripPromptsGo_true_eq, stripPromptsGo_false_id _ hterm,
          List.map, List.map]
      exact splitChar_no_sep _ hnosep
    | cons l2 rest' =>
      have hJ : joinL ['\n'] (l :: l2 :: rest') =
          l ++ '\n' :: joinL ['\n'] (l2 :: rest') := by
        rw [joinL]
        simp
      unfold stripPromptsGM
      rw [hJ, stripPromptsGo_true_eq,
          stripPromptOnce_append_sep l _ (h l (List.mem_cons_self _ _)).1,
          stripPromptsGo_false_append _ _ hterm, stripPromptsGo_false_newline,
          splitChar_append_sep _ _ hnosep, List.map]
      refine congrArg _ ?_
      exact ih (by simp) (fun x hx => h x (List.mem_cons_of_mem l hx))

/-- Witness for the amended C2 on a concrete two-line transcript. -/
theorem stripPrompts_acts_per_line_witness :
    splitChar '\n' (stripPromptsGM (joinL ['\n'] [(">>> a".data), ("... b".data)])) =
      List.map stripPromptOnce [(">>> a".data), ("... b".data)] :=
  stripPrompts_acts_per_line [(">>> a".data), ("... b".data)] (by decide)
    (by decide)

theorem repeatL_length (u : List Char) (k : Nat) :
    (repeatL u k).length = k * u.length := by
  induction k with
  | zero => simp [repeatL]
  | succ n ih =>
    unfold repeatL at *
    rw [List.replicate_succ, List.flatten_cons, List.length_append, ih]
    ring

theorem mem_repeatL_ws (u : List Char) (huw : u.all isWS = true) (k : Nat) :
    ∀ c ∈ repeatL u k, isWS c = true := by
  intro c hc
  unfold repeatL at hc
  obtain ⟨l, hl, hcl⟩ := List.mem_flatten.mp hc
  rw [List.eq_of_mem_replicate hl] at hcl
  exact List.all_eq_true.mp huw c hcl

theorem takeWhile_append_all {p : Char → Bool} {a b : List Char}
    (h : ∀ c ∈ a, p c = true) :
    (a ++ b).takeWhile p = a ++ b.takeWhile p := by
  induction a with
  | nil => rfl
  | cons c a' ih =>
    rw [List.cons_append, List.takeWhile_cons, if_pos (h c (List.mem_cons_self c a')),
        ih (fun x hx => h x (List.mem_cons_of_mem c hx)), List.cons_append]

theorem trimEndL_prefix (l : List Char) : trimEndL l <+: l := by
  unfold trimEndL
  have h1 : List.dropWhile isWS l.reverse <:+ l.reverse := List.dropWhile_suffix isWS
  have h2 := List.reverse_prefix.mpr h1
  simpa using h2

theorem dropWhile_head_false {p : Char → Bool} :
    ∀ (l : List Char) (c : Char) (t : List Char),
      l.dropWhile p = c :: t → p c = false := by
  intro l
  induction l with
  | nil => intro c t h; cases h
  | cons a l' ih =>
    intro c t h
    rw [List.dropWhile_cons] at h
    by_cases hp : p a = true
    · rw [if_pos hp] at h
      exact ih c t h
    · rw [if_neg hp] at h
      cases h
      revert hp
      cases p a <;> simp

theorem trimL_head_not_ws {l : List Char} {c : Char} {t : List Char}
    (h : trimL l = c :: t) : isWS c = false := by
  unfold trimL at h
  obtain ⟨r, hr⟩ := trimEndL_prefix (l.dropWhile isWS)
  rw [h] at hr
  exact dropWhile_head_false l c (t ++ r) (by rw [← hr]; simp)

theorem leadingWS_core_append (u : List Char) (huw : u.all isWS = true) (k : Nat)
    (t : List Char) (ht : ∀ c t', t = c :: t' → isWS c = false) :
    leadingWS (repeatL u k ++ t) = repeatL u k := by
  unfold leadingWS
  rw [takeWhile_append_all (mem_repeatL_ws u huw k)]
  cases t with
  | nil => simp
  | cons c t' =>
    rw [List.takeWhile_cons, if_neg (by simp [ht c t' rfl]), List.append_nil]

theorem wellLine_facts (unit l : List Char) (huw : unit.all isWS = true)
    (hw : wellLine unit l = true) (hb : (trimL l).isEmpty = false) :
    l = repeatL unit ((leadingWS l).length / unit.length) ++ trimL l ∧
    leadingWS l = repeatL unit ((leadingWS l).length / unit.length) ∧
    (leadingWS l).length = ((leadingWS l).length / unit.length) * unit.length := by
  unfold wellLine at hw
  rw [Bool.and_eq_true, beq_iff_eq] at hw
  set k := (leadingWS l).length / unit.length with hk
  have h1 : l = repeatL unit k ++ trimL l := hw.1
  have h2 : leadingWS l = repeatL unit k := by
    conv_lhs => rw [h1]
    exact leadingWS_core_append unit huw k (trimL l)
      (fun c t' heq => trimL_head_not_ws heq)
  have h3 : (leadingWS l).length = k * unit.length := by
    rw [h2, repeatL_length]
  exact ⟨h1, h2, h3⟩

theorem fdiv_mul_sub (k kp u : Nat) (hu : 0 < u) :
    (((k * u : Nat) : Int) - ((kp * u : Nat) : Int)).fdiv (u : Int) =
      (k : Int) - kp := by
  push_cast
  rw [show (k : Int) * u - kp * u = ((k : Int) - kp) * u by ring]
  exact Int.mul_fdiv_cancel _ (by exact_mod_cast Nat.pos_iff_ne_zero.mp hu)

theorem indentLinesGo_step_set (b : Nat) (unit firstLine : List Char)
    (cur : Int) (prev : List Char) (l : List Char) (rest : List (List Char))
    (hb : (trimL l).isEmpty = false) :
    indentLinesGo b unit false firstLine ⟨cur, prev, true⟩ (l :: rest) =
      (repeatL unit (max 0 ((b : Int) + (cur +
          (((leadingWS l).length : Int) - ((prev.length : Nat) : Int)).fdiv
            ((unit.length : Nat) : Int)))).toNat ++ trimL l) ::
      indentLinesGo b unit false firstLine
        ⟨cur + (((leadingWS l).length : Int) - ((prev.length : Nat) : Int)).fdiv
            ((unit.length : Nat) : Int), leadingWS l, true⟩ rest := by
  simp only [indentLinesGo, hb, Bool.false_eq_true, if_false, Bool.not_true]

theorem indentLinesGo_step_unset_nocorr (b : Nat) (unit firstLine : List Char)
    (cur : Int) (p0 : List Char) (l : List Char) (rest : List (List Char))
    (hb : (trimL l).isEmpty = false)
    (hC : ((leadingWS firstLine).length % unit.length == 0 &&
           decide ((leadingWS l).length < (leadingWS firstLine).length) &&
           !endsWithColon (getCodePart firstLine)) = false) :
    indentLinesGo b unit false firstLine ⟨cur, p0, false⟩ (l :: rest) =
      (repeatL unit (max 0 ((b : Int) + cur)).toNat ++ trimL l) ::
      indentLinesGo b unit false firstLine ⟨cur, leadingWS l, true⟩ rest := by
  simp only [indentLinesGo, hb, Bool.false_eq_true, if_false, Bool.not_false,
    eq_self_iff_true, if_true, hC]
  rw [show (((leadingWS l).length : Int) - ((leadingWS l).length : Int)) = 0 by
        ring,
      Int.zero_fdiv, add_zero]

theorem indentLinesGo_step_unset_corr (b : Nat) (unit firstLine : List Char)
    (cur : Int) (p0 : List Char) (l : List Char) (rest : List (List Char))
    (hb : (trimL l).isEmpty = false)
    (hC : ((leadingWS firstLine).length % unit.length == 0 &&
           decide ((leadingWS l).length < (leadingWS firstLine).length) &&
           !endsWithColon (getCodePart firstLine)) = true)
    (hop : endsWithOpener (getCodePart firstLine) = false) :
    indentLinesGo b unit false firstLine ⟨cur, p0, false⟩ (l :: rest) =
      (repeatL unit (max 0 ((b : Int) + (cur +
          (((leadingWS l).length : Int) - ((leadingWS firstLine).length : Int)).fdiv
            ((unit.length : Nat) : Int)))).toNat ++ trimL l) ::
      indentLinesGo b unit false firstLine
        ⟨cur + (((leadingWS l).length : Int) - ((leadingWS firstLine).length : Int)).fdiv
            ((unit.length : Nat) : Int), leadingWS l, true⟩ rest := by
  simp only [indentLinesGo, hb, Bool.false_eq_true, if_false, Bool.not_false,
    eq_self_iff_true, if_true, hC, hop]

theorem indentLinesGo_preserved_id (b : Nat) (unit : List Char)
    (firstLine : List Char) (hu : unit ≠ []) (huw : unit.all isWS = true) :
    ∀ (ls : List (List Char)) (kp : Nat) (prevI : List Char),
      prevI.length = kp * unit.length →
      (∀ l ∈ ls, wellLine unit l = true) →
      indentLinesGo b unit false firstLine
        ⟨(kp : Int) - (b : Int), prevI, true⟩ ls = ls := by
  have hupos : 0 < unit.length := List.length_pos.mpr hu
  intro ls
  induction ls with
  | nil => intro kp prevI hp hall; rfl
  | cons l rest ih =>
    intro kp prevI hp hall
    have hwl : wellLine unit l = true := hall l (List.mem_cons_self l rest)
    have hrest : ∀ x ∈ rest, wellLine unit x = true :=
      fun x hx => hall x (List.mem_cons_of_mem l hx)
    by_cases hb : (trimL l).isEmpty
    · have hle : l = [] := by
        unfold wellLine at hwl
        rw [Bool.and_eq_true] at hwl
        have := hwl.2
        rw [hb] at this
        simp only [Bool.not_true, Bool.false_or] at this
        exact List.isEmpty_iff.mp this
      simp only [indentLinesGo, hb, if_true]
      rw [ih kp prevI hp hrest, hle]
    · have hbf : (trimL l).isEmpty = false := by
        revert hb
        cases (trimL l).isEmpty <;> simp
      obtain ⟨h1, h2, h3⟩ := wellLine_facts unit l huw hwl hbf
      set kj := (leadingWS l).length / unit.length with hkj
      rw [indentLinesGo_step_set b unit firstLine _ prevI l rest hbf]
      have hD : (((leadingWS l).length : Int) - ((prevI.length : Nat) : Int)).fdiv
          ((unit.length : Nat) : Int) = (kj : Int) - kp := by
        rw [h3, hp]
        exact fdiv_mul_sub kj kp unit.length hupos
      rw [hD]
      have hcur : (kp : Int) - (b : Int) + ((kj : Int) - (kp : Int)) =
          (kj : Int) - (b : Int) := by
        ring
      rw [hcur]
      have hlev : ((max 0 ((b : Int) + ((kj : Int) - (b : Int)))).toNat) = kj := by
        have h0 : (b : Int) + ((kj : Int) - (b : Int)) = (kj : Int) := by ring
        rw [h0, max_eq_right (Int.natCast_nonneg kj), Int.toNat_natCast]
      rw [hlev, ih kj (leadingWS l) h3 hrest, ← h1]

theorem getCodePart_hash_head {l : List Char} (h : l.head? = some '#') :
    getCodePart l = [] := by
  cases l with
  | nil => cases h
  | cons c rest =>
    have hc : c = '#' := by
      simpa using h
    subst hc
    rfl

theorem endsWithColon_opener {s : List Char} (h : endsWithColon s = true) :
    endsWithOpener s = true := by
  unfold endsWithColon at h
  unfold endsWithOpener
  rw [beq_iff_eq] at h
  rw [h]
  decide

theorem indentLinesGo_first_id (b : Nat) (unit : List Char) (first : List Char)
    (hu : unit ≠ []) (huw : unit.all isWS = true)
    (hf : first = repeatL unit b ++ trimL first)
    (hfb : (trimL first).isEmpty = false) :
    ∀ (ls : List (List Char)) (p0 : List Char),
      (∀ l ∈ ls, wellLine unit l = true) → structOK unit b first ls = true →
      indentLinesGo b unit false first
        ⟨(if !(first.head? == some '#') && endsWithOpener (getCodePart first)
           then 1 else 0 : Int), p0, false⟩ ls = ls := by
  have hupos : 0 < unit.length := List.length_pos.mpr hu
  have hfirstIndent : leadingWS first = repeatL unit b := by
    conv_lhs => rw [hf]
    refine leadingWS_core_append unit huw b (trimL first) ?_
    exact fun c t' heq => trimL_head_not_ws heq
  have hfl : (leadingWS first).length = b * unit.length := by
    rw [hfirstIndent, repeatL_length]
  intro ls
  induction ls with
  | nil => intro p0 hall hs; rfl
  | cons l rest ih =>
    intro p0 hall hs
    have hwl : wellLine unit l = true := hall l (List.mem_cons_self l rest)
    have hrest : ∀ x ∈ rest, wellLine unit x = true :=
      fun x hx => hall x (List.mem_cons_of_mem l hx)
    by_cases hb : (trimL l).isEmpty
    · have hle : l = [] := by
        unfold wellLine at hwl
        rw [Bool.and_eq_true] at hwl
        have := hwl.2
        rw [hb] at this
        simp only [Bool.not_true, Bool.false_or] at this
        exact List.isEmpty_iff.mp this
      have hs' : structOK unit b first rest = true := by
        unfold structOK firstNonBlank at hs ⊢
        rw [List.find?_cons] at hs
        have hskip : (!(trimL l).isEmpty) = false := by
          rw [hb]
          rfl
        rw [hskip] at hs
        exact hs
      simp only [indentLinesGo, hb, if_true]
      rw [ih p0 hrest hs', hle]
    · have hbf : (trimL l).isEmpty = false := by
        revert hb
        cases (trimL l).isEmpty <;> simp
      obtain ⟨h1, h2, h3⟩ := wellLine_facts unit l huw hwl hbf
      set kj := (leadingWS l).length / unit.length with hkj
      have hsv : (if endsWithOpener (getCodePart first) then (kj == b + 1)
          else decide (kj ≤ b)) = true := by
        unfold structOK firstNonBlank at hs
        rw [List.find?_cons] at hs
        have hcond : (!(trimL l).isEmpty) = true := by
          rw [hbf]
          rfl
        rw [hcond] at hs
        exact hs
      by_cases hop : endsWithOpener (getCodePart first) = true
      · -- block-header first line: the run starts exactly one level deeper
        rw [if_pos hop] at hsv
        have hkjb : kj = b + 1 := beq_iff_eq.mp hsv
        have hhash : (first.head? == some '#') = false := by
          by_cases hh : first.head? = some '#'
          · rw [getCodePart_hash_head hh] at hop
            cases hop
          · exact beq_eq_false_iff_ne.mpr hh
        have hBf : decide ((leadingWS l).length < (leadingWS first).length) =
            false := by
          rw [decide_eq_false_iff_not, h3, hfl, hkjb, Nat.succ_mul]
          omega
        have hC : ((leadingWS first).length % unit.length == 0 &&
            decide ((leadingWS l).length < (leadingWS first).length) &&
            !endsWithColon (getCodePart first)) = false := by
          rw [hBf, Bool.and_false, Bool.false_and]
        rw [indentLinesGo_step_unset_nocorr b unit first _ p0 l rest hbf hC]
        have hcur0 : (if (!(first.head? == some '#') &&
            endsWithOpener (getCodePart first)) = true then (1 : Int) else 0) =
            1 := by
          rw [hhash, hop]
          rfl
        rw [hcur0]
        have hlev : ((max 0 ((b : Int) + 1)).toNat) = kj := by
          have h0 : ((b : Int) + 1) = ((b + 1 : Nat) : Int) := by push_cast; ring
          rw [h0, max_eq_right (Int.natCast_nonneg _), Int.toNat_natCast, ← hkjb]
        rw [hlev]
        have hone : (1 : Int) = (kj : Int) - (b : Int) := by
          rw [hkjb]
          push_cast
          ring
        rw [hone,
          indentLinesGo_preserved_id b unit first hu huw rest kj (leadingWS l)
            h3 hrest, ← h1]
      · -- non-header first line: the run starts at or above the base level
        have hopf : endsWithOpener (getCodePart first) = false := by
          revert hop
          cases endsWithOpener (getCodePart first) <;> simp
        rw [if_neg (by rw [hopf]; simp)] at hsv
        have hkjle : kj ≤ b := of_decide_eq_true hsv
        have hcolon : endsWithColon (getCodePart first) = false := by
          by_cases hcc : endsWithColon (getCodePart first) = true
          · rw [endsWithColon_opener hcc] at hopf
            cases hopf
          · revert hcc
            cases endsWithColon (getCodePart first) <;> simp
        have hcur0 : (if (!(first.head? == some '#') &&
            endsWithOpener (getCodePart first)) = true then (1 : Int) else 0) =
            0 := by
          rw [hopf, Bool.and_false]
          rfl
        rcases Nat.lt_or_ge kj b with hlt | hge
        · -- dedented continuation: the first-line reference correction fires
          have hA : ((leadingWS first).length % unit.length == 0) = true := by
            rw [hfl, Nat.mul_mod_left]
            rfl
          have hB : decide ((leadingWS l).length < (leadingWS first).length) =
              true := by
            rw [decide_eq_true_iff, h3, hfl]
            exact Nat.mul_lt_mul_of_lt_of_le hlt (Nat.le_refl _) hupos
          have hCc : (!endsWithColon (getCodePart first)) = true := by
            rw [hcolon]
            rfl
          have hC : ((leadingWS first).length % unit.length == 0 &&
              decide ((leadingWS l).length < (leadingWS first).length) &&
              !endsWithColon (getCodePart first)) = true := by
            rw [hA, hB, hCc]
            rfl
          rw [indentLinesGo_step_unset_corr b unit first _ p0 l rest hbf hC hopf,
            hcur0]
          have hD : (((leadingWS l).length : Int) -
              ((leadingWS first).length : Int)).fdiv
              ((unit.length : Nat) : Int) = (kj : Int) - b := by
            rw [h3, hfl]
            exact fdiv_mul_sub kj b unit.length hupos
          rw [hD]
          simp only [zero_add]
          have hlev : ((max 0 ((b : Int) + ((kj : Int) - (b : Int)))).toNat) =
              kj := by
            have h0 : (b : Int) + ((kj : Int) - (b : Int)) = (kj : Int) := by
              ring
            rw [h0, max_eq_right (Int.natCast_nonneg kj), Int.toNat_natCast]
          rw [hlev,
            indentLinesGo_preserved_id b unit first hu huw rest kj (leadingWS l)
              h3 hrest, ← h1]
        · -- same-level continuation: no correction, the line is its own reference
          have hkjb : kj = b := Nat.le_antisymm hkjle hge
          have hBf : decide ((leadingWS l).length < (leadingWS first).length) =
              false := by
            rw [decide_eq_false_iff_not, h3, hfl, hkjb]
            omega
          have hC : ((leadingWS first).length % unit.length == 0 &&
              decide ((leadingWS l).length < (leadingWS first).length) &&
              !endsWithColon (getCodePart first)) = false := by
            rw [hBf, Bool.and_false, Bool.false_and]
          rw [indentLinesGo_step_unset_nocorr b unit first _ p0 l rest hbf hC,
            hcur0]
          have hlev : ((max 0 ((b : Int) + 0)).toNat) = kj := by
            rw [add_zero, max_eq_right (Int.natCast_nonneg b),
              Int.toNat_natCast, hkjb]
          rw [hlev]
          have hzero : (0 : Int) = (kj : Int) - (b : Int) := by
            rw [hkjb]
            ring
          rw [hzero,
            indentLinesGo_preserved_id b unit first hu huw rest kj (leadingWS l)
              h3 hrest, ← h1]

/-- Claim C5: a nonempty block that is already correctly indented in the
host's unit at base level `b` (non-blank first line sitting exactly at level
`b`, every line's leading whitespace a whole number of units with no trailing
whitespace, blank lines empty, and consistent relative structure: a
block-header first line is followed one level deeper, a non-header first line
is not followed by a deeper line) is returned unchanged by the
preserved-mode reconstruction at base level `b`. -/
theorem indentLines_idempotent_at_base (unit : List Char) (b : Nat)
    (first : List Char) (rest : List (List Char)) (hu : unit ≠ [])
    (huw : unit.all isWS = true) (hf : first = repeatL unit b ++ trimL first)
    (hfb : (trimL first).isEmpty = false)
    (hr : ∀ l ∈ rest, wellLine unit l = true)
    (hs : structOK unit b first rest = true) :
    indentLines (first :: rest) b unit false = first :: rest := by
  unfold indentLines
  simp only []
  rw [indentLinesGo_first_id b unit first hu huw hf hfb rest [] hr hs, ← hf]

/-- Witness for C5: the correctly-2-space-indented block
`  if x:` / `    y` / `  z` at base level 1 is reproduced unchanged. -/
theorem indentLines_idempotent_at_base_witness :
    indentLines [("  if x:".data), ("    y".data), ("  z".data)] 1 ("  ".data)
      false = [("  if x:".data), ("    y".data), ("  z".data)] :=
  indentLines_idempotent_at_base ("  ".data) 1 ("  if x:".data)
    [("    y".data), ("  z".data)] (by decide) (by decide) (by decide) (by decide)
    (by decide) (by decide)

end PythonPastePro
